import Mathlib

/-!
Shallow embedding of the Mini-Code repository (src/fib_module.py and
src/main.py) and proofs of the specification's claims about it.

The Python function

  def fib(n, memo=None):
      if memo is None:
          memo = {}
      if n <= 1:
          return n
      if n in memo:
          return memo[n]
      memo[n] = fib(n - 1, memo) + fib(n - 2, memo)
      return memo[n]

mutates a dictionary `memo`; we embed it as a state-passing function on an
association list modelling the dictionary (newest binding first, lookup
takes the first match, which coincides with dictionary semantics).  Python
integers are unbounded, so indices and values are `Int`.
-/

namespace FibModule

/-- The memo dictionary of `fib`: a finite map from index to value,
modelled as an association list (most recent insertion first). -/
abbrev Memo := List (Int × Int)

/-- Dictionary lookup: models `n in memo` (is the result `some`?) and
`memo[n]` (the value found) on the Python dict. -/
def lookup : Memo → Int → Option Int
  | [], _ => none
  | (k, v) :: rest, n => if n = k then some v else lookup rest n

/-- Embedding of `fib(n, memo)` from src/fib_module.py, lines 20-29: the
recursive body after the `memo is None` default has been resolved.  The
dictionary mutation `memo[n] = ...` becomes explicit state passing; the
function returns the value together with the updated memo.  Termination is
by the measure `n.toNat`, which both recursive calls strictly decrease. -/
def fib (n : Int) (memo : Memo) : Int × Memo :=
  if n ≤ 1 then (n, memo)
  else
    match lookup memo n with
    | some v => (v, memo)
    | none =>
      let p1 := fib (n - 1) memo
      let p2 := fib (n - 2) p1.2
      (p1.1 + p2.1, (n, p1.1 + p2.1) :: p2.2)
termination_by n.toNat
decreasing_by
  · omega
  · omega

/-- Embedding of the full `fib(n, memo=None)` entry, lines 16-17 of
src/fib_module.py: a caller either omits the memo (argument `none`, and a
fresh empty dictionary is allocated for this call) or supplies one. -/
def fibTop (n : Int) (memo? : Option Memo) : Int × Memo :=
  match memo? with
  | none => fib n []
  | some memo => fib n memo

/-- Number of invocations of `fib` (the call itself plus all recursive
sub-calls) performed by `fib n memo`; instrumentation of the same
recursion, threading the memo exactly as `fib` does. -/
def fibCount (n : Int) (memo : Memo) : Nat :=
  if n ≤ 1 then 1
  else
    match lookup memo n with
    | some _ => 1
    | none => 1 + fibCount (n - 1) memo + fibCount (n - 2) (fib (n - 1) memo).2
termination_by n.toNat
decreasing_by
  · omega
  · omega

/-- Fuel-bounded variant of `fib`, structurally recursive on the fuel;
`none` means the fuel ran out.  Used to express termination: `n.toNat + 1`
units of fuel always suffice, because every recursive call strictly
decreases `n`. -/
def fibFuel : Nat → Int → Memo → Option (Int × Memo)
  | 0, _, _ => none
  | fuel + 1, n, memo =>
    if n ≤ 1 then some (n, memo)
    else
      match lookup memo n with
      | some v => some (v, memo)
      | none =>
        match fibFuel fuel (n - 1) memo with
        | none => none
        | some p1 =>
          match fibFuel fuel (n - 2) p1.2 with
          | none => none
          | some p2 => some (p1.1 + p2.1, (n, p1.1 + p2.1) :: p2.2)

/-- The mathematical Fibonacci sequence: F(0)=0, F(1)=1,
F(n)=F(n-1)+F(n-2). -/
def fibSpec : Nat → Nat
  | 0 => 0
  | 1 => 1
  | n + 2 => fibSpec (n + 1) + fibSpec n

/-- A memo is good when every entry it holds at an index that `fib` can
look up (an index ≥ 2) carries the mathematically correct Fibonacci
value. -/
def GoodMemo (memo : Memo) : Prop :=
  ∀ k v, lookup memo k = some v → 2 ≤ k → v = (fibSpec k.toNat : Int)

end FibModule

namespace MainModule

open FibModule

/-- The fixed input of `main` in src/main.py: `n = 16`. -/
def mainN : Int := 16

/-- The single line `main` writes to standard output:
`The {n}th Fibonacci number is: {result}` with `n = mainN` and
`result = fib(n)` (memo omitted, so a fresh empty one is used). -/
def mainLine : String :=
  "The " ++ toString mainN ++ "th Fibonacci number is: "
    ++ toString (fibTop mainN none).1

end MainModule

namespace FibModule

/-! ### Case equations for `fib` and `fibCount` -/

lemma fib_base {n : Int} (memo : Memo) (h : n ≤ 1) : fib n memo = (n, memo) := by
  rw [fib]
  simp [h]

lemma fib_hit {n : Int} {memo : Memo} {v : Int} (h1 : ¬ n ≤ 1)
    (h2 : lookup memo n = some v) : fib n memo = (v, memo) := by
  rw [fib]
  simp [h1, h2]

lemma fib_miss {n : Int} {memo : Memo} (h1 : ¬ n ≤ 1)
    (h2 : lookup memo n = none) :
    fib n memo =
      ((fib (n - 1) memo).1 + (fib (n - 2) (fib (n - 1) memo).2).1,
        (n, (fib (n - 1) memo).1 + (fib (n - 2) (fib (n - 1) memo).2).1)
          :: (fib (n - 2) (fib (n - 1) memo).2).2) := by
  rw [fib]
  simp [h1, h2]

lemma fibCount_base {n : Int} (memo : Memo) (h : n ≤ 1) : fibCount n memo = 1 := by
  rw [fibCount]
  simp [h]

lemma fibCount_hit {n : Int} {memo : Memo} {v : Int} (h1 : ¬ n ≤ 1)
    (h2 : lookup memo n = some v) : fibCount n memo = 1 := by
  rw [fibCount]
  simp [h1, h2]

lemma fibCount_miss {n : Int} {memo : Memo} (h1 : ¬ n ≤ 1)
    (h2 : lookup memo n = none) :
    fibCount n memo =
      1 + fibCount (n - 1) memo + fibCount (n - 2) (fib (n - 1) memo).2 := by
  rw [fibCount]
  simp [h1, h2]

/-! ### Lookup lemmas -/

lemma lookup_cons {k v : Int} {rest : Memo} {n : Int} :
    lookup ((k, v) :: rest) n = if n = k then some v else lookup rest n := rfl

lemma lookup_append_of_some {a : Memo} (b : Memo) {k v : Int}
    (h : lookup a k = some v) : lookup (a ++ b) k = some v := by
  induction a with
  | nil => simp [lookup] at h
  | cons p rest ih =>
    obtain ⟨k', v'⟩ := p
    by_cases hk : k = k' <;> simp [lookup, hk] at h ⊢ <;> simp_all

lemma lookup_append_of_none {a : Memo} (b : Memo) {k : Int}
    (h : lookup a k = none) : lookup (a ++ b) k = lookup b k := by
  induction a with
  | nil => simp
  | cons p rest ih =>
    obtain ⟨k', v'⟩ := p
    by_cases hk : k = k'
    · simp [lookup, hk] at h
    · simp only [List.cons_append, lookup_cons, if_neg hk] at h ⊢
      exact ih h

lemma lookup_eq_none_iff {a : Memo} {k : Int} :
    lookup a k = none ↔ k ∉ a.map Prod.fst := by
  induction a with
  | nil => simp [lookup]
  | cons p rest ih =>
    obtain ⟨k', v'⟩ := p
    by_cases hk : k = k' <;> simp [lookup, hk, ih]

lemma lookup_append_none_parts {a b : Memo} {k : Int}
    (h : lookup (a ++ b) k = none) : lookup a k = none ∧ lookup b k = none := by
  rcases ha : lookup a k with _ | v
  · exact ⟨rfl, by rwa [lookup_append_of_none b ha] at h⟩
  · rw [lookup_append_of_some b ha] at h
    cases h

/-! ### Frame lemma: a run of `fib` only prepends fresh entries -/

lemma fib_frame_aux : ∀ (N : Nat) (n : Int) (memo : Memo), n.toNat ≤ N →
    ∃ new : Memo, (fib n memo).2 = new ++ memo ∧
      (∀ p ∈ new, lookup memo p.1 = none ∧ 2 ≤ p.1 ∧ p.1 ≤ n) ∧
      (new.map Prod.fst).Nodup := by
  intro N
  induction N with
  | zero =>
    intro n memo hN
    refine ⟨[], ?_, by simp, by simp⟩
    rw [fib_base memo (by omega)]
    simp
  | succ N ih =>
    intro n memo hN
    by_cases h1 : n ≤ 1
    · refine ⟨[], ?_, by simp, by simp⟩
      rw [fib_base memo h1]
      simp
    · rcases h2 : lookup memo n with _ | v
      · obtain ⟨new1, e1, hp1, hnd1⟩ := ih (n - 1) memo (by omega)
        obtain ⟨new2, e2, hp2, hnd2⟩ := ih (n - 2) (fib (n - 1) memo).2 (by omega)
        rw [e1] at e2 hp2
        refine ⟨(n, (fib (n - 1) memo).1 + (fib (n - 2) (fib (n - 1) memo).2).1)
          :: (new2 ++ new1), ?_, ?_, ?_⟩
        · rw [fib_miss h1 h2]
          simp [e2, e1]
        · intro p hpmem
          rcases List.mem_cons.mp hpmem with rfl | hp
          · exact ⟨h2, by omega, by omega⟩
          · rcases List.mem_append.mp hp with hp' | hp'
            · obtain ⟨hnone, hlo, hhi⟩ := hp2 p hp'
              obtain ⟨-, hmemo⟩ := lookup_append_none_parts hnone
              exact ⟨hmemo, hlo, by omega⟩
            · obtain ⟨hnone, hlo, hhi⟩ := hp1 p hp'
              exact ⟨hnone, hlo, by omega⟩
        · simp only [List.map_cons, List.map_append, List.nodup_cons]
          constructor
          · intro hmem
            rcases List.mem_append.mp hmem with hm | hm
            · obtain ⟨p, hp, hpk⟩ := List.mem_map.mp hm
              obtain ⟨-, -, hhi⟩ := hp2 p hp
              omega
            · obtain ⟨p, hp, hpk⟩ := List.mem_map.mp hm
              obtain ⟨-, -, hhi⟩ := hp1 p hp
              omega
          · rw [List.nodup_append]
            refine ⟨hnd2, hnd1, ?_⟩
            intro k hk2 hk1
            obtain ⟨p, hp, hpk⟩ := List.mem_map.mp hk2
            obtain ⟨hnone, -, -⟩ := hp2 p hp
            obtain ⟨hnew1, -⟩ := lookup_append_none_parts hnone
            rw [lookup_eq_none_iff] at hnew1
            subst hpk
            exact hnew1 hk1
      · refine ⟨[], ?_, by simp, by simp⟩
        rw [fib_hit h1 h2]
        simp

lemma fib_frame (n : Int) (memo : Memo) :
    ∃ new : Memo, (fib n memo).2 = new ++ memo ∧
      (∀ p ∈ new, lookup memo p.1 = none ∧ 2 ≤ p.1 ∧ p.1 ≤ n) ∧
      (new.map Prod.fst).Nodup :=
  fib_frame_aux n.toNat n memo le_rfl

/-- Every entry present before a run of `fib` is still present, with the
same value, afterwards. -/
lemma fib_preserve {memo : Memo} {k v : Int} (n : Int)
    (h : lookup memo k = some v) : lookup (fib n memo).2 k = some v := by
  obtain ⟨new, e, hp, -⟩ := fib_frame n memo
  rw [e]
  have hnew : lookup new k = none := by
    rw [lookup_eq_none_iff]
    intro hk
    obtain ⟨p, hpmem, hpk⟩ := List.mem_map.mp hk
    obtain ⟨hnone, -, -⟩ := hp p hpmem
    rw [hpk] at hnone
    rw [hnone] at h
    cases h
  rw [lookup_append_of_none memo hnew]
  exact h


/-! ### Value correctness -/

lemma fibSpec_step (k : Nat) : fibSpec (k + 2) = fibSpec (k + 1) + fibSpec k := rfl

lemma fibSpec_add {n : Int} (h : 2 ≤ n) :
    (fibSpec (n - 1).toNat : Int) + (fibSpec (n - 2).toNat : Int)
      = (fibSpec n.toNat : Int) := by
  obtain ⟨k, hk⟩ : ∃ k : Nat, n.toNat = k + 2 := ⟨n.toNat - 2, by omega⟩
  have e1 : (n - 1).toNat = k + 1 := by omega
  have e2 : (n - 2).toNat = k := by omega
  rw [e1, e2, hk, fibSpec_step]
  push_cast
  ring

lemma fib_correct_aux : ∀ (N : Nat) (n : Int) (memo : Memo), n.toNat ≤ N →
    GoodMemo memo →
    (0 ≤ n → (fib n memo).1 = (fibSpec n.toNat : Int)) ∧ GoodMemo (fib n memo).2 := by
  intro N
  induction N with
  | zero =>
    intro n memo hN hG
    rw [fib_base memo (by omega)]
    refine ⟨fun h0 => ?_, hG⟩
    have hn : n = 0 := by omega
    subst hn
    rfl
  | succ N ih =>
    intro n memo hN hG
    by_cases h1 : n ≤ 1
    · rw [fib_base memo h1]
      refine ⟨fun h0 => ?_, hG⟩
      have hn : n = 0 ∨ n = 1 := by omega
      rcases hn with rfl | rfl <;> rfl
    · rcases h2 : lookup memo n with _ | v
      · obtain ⟨ha, hG1⟩ := ih (n - 1) memo (by omega) hG
        obtain ⟨hb, hG2⟩ := ih (n - 2) (fib (n - 1) memo).2 (by omega) hG1
        rw [fib_miss h1 h2]
        constructor
        · intro h0
          simp only []
          rw [ha (by omega), hb (by omega)]
          exact fibSpec_add (by omega)
        · intro k v hkv hk2
          rw [lookup_cons] at hkv
          by_cases hkn : k = n
          · rw [if_pos hkn] at hkv
            obtain rfl : (fib (n - 1) memo).1 + (fib (n - 2) (fib (n - 1) memo).2).1 = v :=
              Option.some.inj hkv
            rw [ha (by omega), hb (by omega), hkn, fibSpec_add (by omega)]
          · rw [if_neg hkn] at hkv
            exact hG2 k v hkv hk2
      · rw [fib_hit h1 h2]
        exact ⟨fun h0 => hG n v h2 (by omega), hG⟩


/-! ### Preservation and key-set lemmas -/

/-- Any key present after a run of `fib n` was present before, or lies in
the interval [2, n]. -/
lemma fib_keys_bound {n : Int} {memo : Memo} {j : Int}
    (h : lookup (fib n memo).2 j ≠ none) :
    lookup memo j ≠ none ∨ (2 ≤ j ∧ j ≤ n) := by
  obtain ⟨new, e, hp, -⟩ := fib_frame n memo
  rw [e] at h
  rcases hnew : lookup new j with _ | w
  · rw [lookup_append_of_none memo hnew] at h
    exact Or.inl h
  · have hj : j ∈ new.map Prod.fst := by
      by_contra hcon
      rw [← lookup_eq_none_iff] at hcon
      rw [hcon] at hnew
      cases hnew
    obtain ⟨p, hpmem, hpk⟩ := List.mem_map.mp hj
    obtain ⟨-, hlo, hhi⟩ := hp p hpmem
    exact Or.inr ⟨by omega, by omega⟩

lemma goodMemo_nil : GoodMemo [] := by
  intro k v h
  cases h

/-- After a run of `fib n` on any memo, the key `n` itself is present
whenever `2 ≤ n`. -/
lemma fib_mem_after {n : Int} (memo : Memo) (h : 2 ≤ n) :
    ∃ v, lookup (fib n memo).2 n = some v := by
  have h1 : ¬ n ≤ 1 := by omega
  rcases h2 : lookup memo n with _ | v
  · rw [fib_miss h1 h2]
    exact ⟨_, by rw [lookup_cons, if_pos rfl]⟩
  · rw [fib_hit h1 h2]
    exact ⟨v, h2⟩

/-- A cache-missing run of `fib m` with `3 ≤ m` also records the key
`m - 1` (it is computed by the first recursive call). -/
lemma fib_after_prev {m : Int} (memo : Memo) (hm : 3 ≤ m)
    (h2 : lookup memo m = none) :
    ∃ w, lookup (fib m memo).2 (m - 1) = some w := by
  have h1 : ¬ m ≤ 1 := by omega
  rw [fib_miss h1 h2]
  obtain ⟨w, hw⟩ := fib_mem_after memo (show (2:Int) ≤ m - 1 by omega)
  refine ⟨w, ?_⟩
  rw [lookup_cons, if_neg (by omega)]
  exact fib_preserve (m - 2) hw

/-- Completeness of the memo built from an empty cache: the run of
`fib n []` records every key in [2, n] with its correct value. -/
lemma fib_complete_aux : ∀ (N : Nat) (n : Int), n.toNat ≤ N → ∀ j : Int,
    2 ≤ j → j ≤ n → lookup (fib n []).2 j = some (fibSpec j.toNat : Int) := by
  intro N
  induction N with
  | zero =>
    intro n hN j hj2 hjn
    omega
  | succ N ih =>
    intro n hN j hj2 hjn
    have h1 : ¬ n ≤ 1 := by omega
    have h2 : lookup [] n = none := rfl
    rw [fib_miss h1 h2]
    by_cases hjeq : j = n
    · subst hjeq
      rw [lookup_cons, if_pos rfl]
      obtain ⟨-, hG1⟩ := fib_correct_aux (j - 1).toNat (j - 1) [] le_rfl goodMemo_nil
      have ha := (fib_correct_aux (j - 1).toNat (j - 1) [] le_rfl goodMemo_nil).1 (by omega)
      have hb := (fib_correct_aux (j - 2).toNat (j - 2) (fib (j - 1) []).2 le_rfl hG1).1
        (by omega)
      rw [ha, hb, fibSpec_add hj2]
    · rw [lookup_cons, if_neg hjeq]
      have hj : lookup (fib (n - 1) []).2 j = some (fibSpec j.toNat : Int) :=
        ih (n - 1) (by omega) j hj2 (by omega)
      exact fib_preserve (n - 2) hj

/-! ### Call-count lemmas -/

/-- Collapsed recurrence when the first recursive call is answered
immediately (base case or cache hit at `n - 1`). -/
lemma fibCount_miss_prev_cheap {n : Int} {memo : Memo} (_hn : 2 ≤ n)
    (h2 : lookup memo n = none)
    (h3 : n - 1 ≤ 1 ∨ lookup memo (n - 1) ≠ none) :
    fibCount n memo = 2 + fibCount (n - 2) memo := by
  have h1 : ¬ n ≤ 1 := by omega
  rw [fibCount_miss h1 h2]
  by_cases hb : n - 1 ≤ 1
  · rw [fibCount_base memo hb, fib_base memo hb]
  · rcases h3 with h3 | h3
    · omega
    · rcases hv : lookup memo (n - 1) with _ | v
      · exact absurd hv h3
      · rw [fibCount_hit hb hv, fib_hit hb hv]

/-- Collapsed recurrence when the first recursive call misses the cache:
the second recursive call is then answered immediately, because
`fib (n-1)` has recorded the key `n - 2`. -/
lemma fibCount_miss_prev_miss {n : Int} {memo : Memo} (_hn : 2 ≤ n)
    (h2 : lookup memo n = none) (h3 : 2 ≤ n - 1)
    (h4 : lookup memo (n - 1) = none) :
    fibCount n memo = 2 + fibCount (n - 1) memo := by
  have h1 : ¬ n ≤ 1 := by omega
  rw [fibCount_miss h1 h2]
  have hthird : fibCount (n - 2) (fib (n - 1) memo).2 = 1 := by
    by_cases hb : n - 2 ≤ 1
    · exact fibCount_base _ hb
    · obtain ⟨w, hw⟩ := fib_after_prev memo (show (3:Int) ≤ n - 1 by omega) h4
      have hw' : lookup (fib (n - 1) memo).2 (n - 2) = some w := by
        have e : n - 1 - 1 = n - 2 := by ring
        rw [e] at hw
        exact hw
      exact fibCount_hit hb hw'
  rw [hthird]
  omega

/-- With an empty starting cache, a top-level `fib n` for `1 ≤ n`
performs exactly `2n - 1` invocations. -/
lemma fibCount_empty : ∀ (N : Nat) (n : Int), n.toNat ≤ N → 1 ≤ n →
    (fibCount n [] : Int) = 2 * n - 1 := by
  intro N
  induction N with
  | zero =>
    intro n hN h1
    omega
  | succ N ih =>
    intro n hN h1
    by_cases hb : n ≤ 1
    · have : n = 1 := by omega
      subst this
      rw [fibCount_base [] (by omega)]
      norm_num
    · have h2 : lookup [] n = none := rfl
      by_cases h3 : n - 1 ≤ 1
      · have hn2 : n = 2 := by omega
        subst hn2
        rw [fibCount_miss_prev_cheap (by omega) h2 (Or.inl (by omega))]
        rw [show (2:Int) - 2 = 0 by ring, fibCount_base [] (by omega)]
        norm_num
      · rw [fibCount_miss_prev_miss (by omega) h2 (by omega) rfl]
        have := ih (n - 1) (by omega) (by omega)
        push_cast
        omega

/-- With any starting cache, a top-level `fib n` for `1 ≤ n` performs at
most `2n - 1` invocations. -/
lemma fibCount_le : ∀ (N : Nat) (n : Int) (memo : Memo), n.toNat ≤ N → 1 ≤ n →
    (fibCount n memo : Int) ≤ 2 * n - 1 := by
  intro N
  induction N with
  | zero =>
    intro n memo hN h1
    omega
  | succ N ih =>
    intro n memo hN h1
    by_cases hb : n ≤ 1
    · rw [fibCount_base memo hb]
      push_cast
      omega
    · rcases h2 : lookup memo n with _ | v
      · by_cases h3 : n - 1 ≤ 1 ∨ lookup memo (n - 1) ≠ none
        · rw [fibCount_miss_prev_cheap (by omega) h2 h3]
          by_cases h4 : n - 2 ≤ 0
          · rw [fibCount_base memo (by omega)]
            push_cast
            omega
          · have := ih (n - 2) memo (by omega) (by omega)
            push_cast
            omega
        · push_neg at h3
          obtain ⟨h3a, h3b⟩ := h3
          rw [fibCount_miss_prev_miss (by omega) h2 (by omega) h3b]
          have := ih (n - 1) memo (by omega) (by omega)
          push_cast
          omega
      · rw [fibCount_hit (by omega) h2]
        push_cast
        omega


/-- Strict saving: if the cache misses at `n` but holds some key in
[2, n-1], the run performs strictly fewer than `2n - 1` invocations. -/
lemma fibCount_lt : ∀ (N : Nat) (n : Int) (memo : Memo), n.toNat ≤ N →
    (∃ k, 2 ≤ k ∧ k ≤ n - 1 ∧ lookup memo k ≠ none) →
    lookup memo n = none →
    (fibCount n memo : Int) < 2 * n - 1 := by
  intro N
  induction N with
  | zero =>
    intro n memo hN hk h2
    obtain ⟨k, hk2, hkn, -⟩ := hk
    omega
  | succ N ih =>
    intro n memo hN hk h2
    obtain ⟨k, hk2, hkn, hkmem⟩ := hk
    have hn3 : 3 ≤ n := by omega
    rcases h3 : lookup memo (n - 1) with _ | v
    · have hkn' : k ≤ n - 2 := by
        rcases eq_or_lt_of_le hkn with heq | hlt
        · rw [heq] at hkmem
          exact absurd h3 hkmem
        · omega
      have hrec := fibCount_miss_prev_miss (by omega) h2 (by omega) h3
      have hih := ih (n - 1) memo (by omega) ⟨k, hk2, by omega, hkmem⟩ h3
      rw [hrec]
      push_cast
      omega
    · have hrec := fibCount_miss_prev_cheap (by omega) h2 (Or.inr (by simp [h3]))
      have hle := fibCount_le (n - 2).toNat (n - 2) memo le_rfl (by omega)
      rw [hrec]
      push_cast
      omega


/-! ### Termination via fuel -/

/-- With `n.toNat` exceeded by the fuel, the fuel-bounded evaluator never
runs out: every recursive call strictly decreases `n`, so `n.toNat + 1`
units always suffice and the result agrees with `fib`. -/
lemma fibFuel_eq : ∀ (fuel : Nat) (n : Int) (memo : Memo), n.toNat < fuel →
    fibFuel fuel n memo = some (fib n memo) := by
  intro fuel
  induction fuel with
  | zero =>
    intro n memo h
    omega
  | succ fuel ih =>
    intro n memo h
    by_cases h1 : n ≤ 1
    · rw [fib_base memo h1]
      simp [fibFuel, h1]
    · rcases h2 : lookup memo n with _ | v
      · rw [fib_miss h1 h2]
        have e1 := ih (n - 1) memo (by omega)
        have e2 := ih (n - 2) (fib (n - 1) memo).2 (by omega)
        simp [fibFuel, h1, h2, e1, e2]
      · rw [fib_hit h1 h2]
        simp [fibFuel, h1, h2]

end FibModule

namespace Claims

open FibModule MainModule

/-- C1: for every integer n ≥ 0, `compute(n)` — `fib` called with a fresh
empty cache — returns the mathematically defined nth Fibonacci number
under the recurrence F(0)=0, F(1)=1, F(n)=F(n-1)+F(n-2). -/
theorem c1_compute_returns_fibonacci (n : Int) (h : 0 ≤ n) :
    (fib n []).1 = (fibSpec n.toNat : Int) :=
  (fib_correct_aux n.toNat n [] le_rfl goodMemo_nil).1 h

/-- C1 witness: the theorem at the concrete input n = 10, whose Fibonacci
number is 55. -/
theorem c1_witness :
    (0:Int) ≤ 10 ∧ (fib 10 []).1 = (fibSpec (10:Int).toNat : Int) ∧
      (fibSpec (10:Int).toNat : Int) = 55 :=
  ⟨by decide, c1_compute_returns_fibonacci 10 (by decide), by decide⟩

/-- C2 counterexample: after `compute(2)` on a cache started empty, the
cache does not contain key 0 (the claim asserts every k in [0, 2] is
present); the base case returns before any cache write, so keys 0 and 1
are never inserted. -/
theorem c2_counterexample : lookup (fib 2 []).2 0 = none := by
  have h : fib 2 [] = (1, [(2, 1)]) := by simp [fib, lookup]
  rw [h]
  rfl

/-- C2 amended: after a top-level `compute(n)` on a cache started empty,
for every index k in [2, n] the cache contains key k mapped to the correct
Fibonacci value F(k) (keys 0 and 1 are never inserted). -/
theorem c2_cache_correct_amended (n k : Int) (h2 : 2 ≤ k) (hn : k ≤ n) :
    lookup (fib n []).2 k = some (fibSpec k.toNat : Int) :=
  fib_complete_aux n.toNat n le_rfl k h2 hn

/-- C2 witness: the amended theorem at n = 3, k = 2. -/
theorem c2_witness :
    (2:Int) ≤ 2 ∧ (2:Int) ≤ 3 ∧
      lookup (fib 3 []).2 2 = some (fibSpec (2:Int).toNat : Int) :=
  ⟨by decide, by decide, c2_cache_correct_amended 3 2 (by decide) (by decide)⟩

/-- C3 counterexample: `compute(-1)` does not fail with an InvalidArgument
error — the code has no error path at all; it returns the value -1 (and
leaves the cache untouched). -/
theorem c3_counterexample : fib (-1) [] = (-1, []) :=
  fib_base [] (by decide)

/-- C3 amended: for every integer n < 0, `compute(n)` returns n itself
immediately (no error, no recursion, no cache access), because the base
case `n <= 1` already covers every negative n. -/
theorem c3_negative_returns_n (n : Int) (memo : Memo) (h : n < 0) :
    fib n memo = (n, memo) :=
  fib_base memo (by omega)

/-- C3 witness: the amended theorem at n = -5 with a nonempty cache. -/
theorem c3_witness : (-5 : Int) < 0 ∧ fib (-5) [(3, 2)] = (-5, [(3, 2)]) :=
  ⟨by decide, c3_negative_returns_n (-5) [(3, 2)] (by decide)⟩

/-- C4: the entry point sets n = 16, computes fib(16) with the cache
omitted, and the single line it writes to standard output is exactly
`The 16th Fibonacci number is: 987`. -/
theorem c4_main_output : mainLine = "The 16th Fibonacci number is: 987" := by
  have h : (fibTop mainN none).1 = 987 := by
    have h0 := (fib_correct_aux (16:Int).toNat 16 [] le_rfl goodMemo_nil).1 (by decide)
    show (fib 16 []).1 = 987
    rw [h0]
    decide
  simp only [mainLine]
  rw [h]
  rfl

/-- C5: a run of `fib` only prepends new entries to the cache — the
final cache is `new ++ memo` for a block `new` of entries whose keys were
all absent from the original cache and are pairwise distinct (each
subproblem is stored at most once), and every pre-existing entry is still
present unchanged afterwards. -/
theorem c5_insert_only (n : Int) (memo : Memo) :
    ∃ new : Memo, (fib n memo).2 = new ++ memo ∧
      (∀ p ∈ new, lookup memo p.1 = none) ∧
      (new.map Prod.fst).Nodup ∧
      (∀ k v, lookup memo k = some v → lookup (fib n memo).2 k = some v) := by
  obtain ⟨new, e, hp, hnd⟩ := fib_frame n memo
  exact ⟨new, e, fun p hp' => (hp p hp').1, hnd,
    fun k v hkv => fib_preserve n hkv⟩

/-- C5 witness: the pre-existing entry 9 ↦ 99 survives a run of
`fib 4`. -/
theorem c5_witness : lookup (fib 4 [(9, 99)]).2 9 = some 99 := by
  obtain ⟨new, e, h1, h2, h3⟩ := c5_insert_only 4 [(9, 99)]
  exact h3 9 99 rfl

/-- C6 counterexample: the cache [(0, 0)] is pre-populated with correct
entries for indices below n = 2, yet `compute(2)` with it performs
exactly as many invocations (3) as with an empty cache — not strictly
fewer, because the entry 0 is never looked up. -/
theorem c6_counterexample :
    (∀ k v, lookup [((0:Int), (0:Int))] k = some v →
      0 ≤ k ∧ k < 2 ∧ v = (fibSpec k.toNat : Int)) ∧
    ¬ (fibCount 2 [((0:Int), (0:Int))] < fibCount 2 []) := by
  constructor
  · intro k v hkv
    rw [lookup_cons] at hkv
    by_cases hk : k = 0
    · subst hk
      rw [if_pos rfl] at hkv
      obtain rfl : (0 : Int) = v := Option.some.inj hkv
      exact ⟨by decide, by decide, by decide⟩
    · rw [if_neg hk] at hkv
      cases hkv
  · have e1 : fibCount 2 [((0:Int), (0:Int))] = 3 := by simp [fibCount, fib, lookup]
    have e2 : fibCount 2 [] = 3 := by simp [fibCount, fib, lookup]
    rw [e1, e2]
    omega

/-- C6 amended: if `compute(n)` is called with a pre-populated cache whose
entries all have indices in [0, n) and carry correct Fibonacci values,
and at least one entry has an index in [2, n-1] (an index the recursion
actually looks up), then the pre-existing entries are unchanged on
return, the call returns the correct F(n), and it performs strictly fewer
invocations than `compute(n)` with an empty cache. -/
theorem c6_cache_reuse_amended (n : Int) (memo : Memo)
    (hEntries : ∀ k v, lookup memo k = some v →
      0 ≤ k ∧ k < n ∧ v = (fibSpec k.toNat : Int))
    (hUseful : ∃ k, 2 ≤ k ∧ k ≤ n - 1 ∧ lookup memo k ≠ none) :
    (∀ k v, lookup memo k = some v → lookup (fib n memo).2 k = some v) ∧
    (fib n memo).1 = (fibSpec n.toNat : Int) ∧
    fibCount n memo < fibCount n [] := by
  obtain ⟨k0, hk02, hk0n, hk0mem⟩ := hUseful
  have hn3 : 3 ≤ n := by omega
  have hGood : GoodMemo memo := fun k v hkv _ => (hEntries k v hkv).2.2
  have hmissn : lookup memo n = none := by
    rcases hv : lookup memo n with _ | v
    · rfl
    · have := (hEntries n v hv).2.1
      omega
  refine ⟨fun k v hkv => fib_preserve n hkv, ?_, ?_⟩
  · exact (fib_correct_aux n.toNat n memo le_rfl hGood).1 (by omega)
  · have hlt := fibCount_lt n.toNat n memo le_rfl ⟨k0, hk02, hk0n, hk0mem⟩ hmissn
    have heq := fibCount_empty n.toNat n le_rfl (by omega)
    omega

/-- C6 witness: the amended theorem at n = 4 with the cache [(2, 1)]. -/
theorem c6_witness : fibCount 4 [((2:Int), (1:Int))] < fibCount 4 [] := by
  refine (c6_cache_reuse_amended 4 [(2, 1)] ?_ ?_).2.2
  · intro k v hkv
    rw [lookup_cons] at hkv
    by_cases hk : k = 2
    · subst hk
      rw [if_pos rfl] at hkv
      obtain rfl : (1 : Int) = v := Option.some.inj hkv
      exact ⟨by decide, by decide, by decide⟩
    · rw [if_neg hk] at hkv
      cases hkv
  · exact ⟨2, by decide, by decide, by decide⟩

/-- C7: for every integer n ≤ 1 and every cache, `compute(n, cache)`
returns n directly and leaves the cache exactly as it was — even if the
cache holds an entry for key n — and in particular compute(0) = 0 and
compute(1) = 1. -/
theorem c7_base_case_policy :
    (∀ (n : Int) (memo : Memo), n ≤ 1 → fib n memo = (n, memo)) ∧
    (fib 0 []).1 = 0 ∧ (fib 1 []).1 = 1 := by
  refine ⟨fun n memo h => fib_base memo h, ?_, ?_⟩
  · rw [fib_base [] (by decide)]
  · rw [fib_base [] (by decide)]

/-- C7 witness: `fib 1` ignores and keeps a cache that already maps key 1
to 42, and compute(0) = 0. -/
theorem c7_witness :
    fib 1 [((1:Int), (42:Int))] = (1, [(1, 42)]) ∧ (fib 0 []).1 = 0 :=
  ⟨c7_base_case_policy.1 1 [(1, 42)] (by decide), c7_base_case_policy.2.1⟩

/-- C8: the omitted-cache path allocates a fresh empty mapping each call
(the default is the `None` sentinel, never a shared mapping), so
`compute(n)` with the cache omitted equals `compute(n)` with an explicit
fresh empty cache, and any number of repeated omitted-cache calls all
return the same result. -/
theorem c8_fresh_default (n : Int) :
    fibTop n none = fibTop n (some []) ∧
    ∀ count : Nat,
      (List.replicate count n).map (fun m => (fibTop m none).1)
        = List.replicate count (fibTop n none).1 := by
  refine ⟨rfl, fun count => ?_⟩
  rw [List.map_replicate]

/-- C9: `compute(n, cache)` terminates for every integer n: the
fuel-bounded evaluator already succeeds with `n.toNat + 1` units of fuel
because each recursive call strictly decreases n toward the base case,
and every n < 0 falls into the `n <= 1` base case and returns n itself —
no error and no recursion. -/
theorem c9_terminates (n : Int) (memo : Memo) :
    fibFuel (n.toNat + 1) n memo = some (fib n memo) ∧
    (n < 0 → fib n memo = (n, memo)) :=
  ⟨fibFuel_eq (n.toNat + 1) n memo (by omega),
    fun h => fib_base memo (by omega)⟩

/-- C9 witness: the theorem at n = -7 with an empty cache. -/
theorem c9_witness :
    fibFuel ((-7 : Int).toNat + 1) (-7) [] = some (fib (-7) []) ∧
      fib (-7) [] = (-7, []) := by
  have h := c9_terminates (-7) []
  exact ⟨h.1, h.2 (by decide)⟩

/-- C10: for every n ≥ 2, after `compute(n)` on an initially empty cache
the key set of the cache is exactly the interval [2, n] — each key k in
[2, n] is present with value F(k), and every key outside [2, n]
(including 0 and 1, which the base case returns before writing) is
absent. -/
theorem c10_exact_key_set (n : Int) (_hn : 2 ≤ n) (k : Int) :
    (2 ≤ k ∧ k ≤ n → lookup (fib n []).2 k = some (fibSpec k.toNat : Int)) ∧
    (¬ (2 ≤ k ∧ k ≤ n) → lookup (fib n []).2 k = none) := by
  constructor
  · rintro ⟨hk2, hkn⟩
    exact fib_complete_aux n.toNat n le_rfl k hk2 hkn
  · intro hout
    rcases hv : lookup (fib n []).2 k with _ | v
    · rfl
    · have hb := fib_keys_bound
        (show lookup (fib n []).2 k ≠ none by rw [hv]; simp)
      rcases hb with hmem | hin
      · exact absurd rfl hmem
      · exact absurd hin hout

/-- C10 witness: the theorem at n = 2 — key 2 is present with F(2) = 1
and key 7 is absent. -/
theorem c10_witness :
    (2:Int) ≤ 2 ∧
      lookup (fib 2 []).2 2 = some (fibSpec (2:Int).toNat : Int) ∧
      lookup (fib 2 []).2 7 = none :=
  ⟨by decide,
    (c10_exact_key_set 2 (by decide) 2).1 ⟨by decide, by decide⟩,
    (c10_exact_key_set 2 (by decide) 7).2 (by decide)⟩

end Claims
